import Mathlib

/-!
Verification of the gogu repository's specification against a shallow
embedding of its code.

Two groups of definitions appear below.

The slice helpers (`IndexOf`, `LastIndexOf`, `FindMinBy`, `FindMaxBy`,
`Nth`, `Bound.Enclose`) are translated directly from the Go source in
the repository (file `find.go`, present in the source tree).  Go slices
become `List`, Go `int` becomes `Int` (or `Nat` where the value is a
length), and a Go run-time index fault is modelled as an explicit
result constructor.

The ternary-search-tree package (`trie`) ships only its generated
documentation in the source tree; the implementation file `trie.go` is
missing.  Those definitions are therefore modelled from the
specification's own algorithm description (spec sections 3, 4.1 and
4.2), as noted in each doc comment.  Keys are `List Char`, the queue
collaborator is modelled as the list of enqueued keys in FIFO order,
and `ErrorNotFound` becomes the `TrieErr.notFound` constructor.  All
modelled operations are total Lean functions: the spec's requirement
that no lookup panics or aborts is reflected by the fact that every
definition below is a total function returning an explicit result.
-/

/-! ## Slice helpers from the Go source (find.go) -/

/-- IndexOf: Go `IndexOf[T comparable](s []T, val T) int` iterates the
slice front to back and returns the index of the first element equal to
`val`, or `-1` when absent.  `indexOfGo` is the loop with `k` the index
of the head of the remaining slice. -/
def indexOfGo {T : Type} [DecidableEq T] (val : T) : List T → Nat → Int
  | [], _ => -1
  | x :: xs, k => if x = val then (k : Int) else indexOfGo val xs (k + 1)

/-- IndexOf returns the index at which value can be found in the slice,
or -1 if value is not present in the slice (Go source, find.go). -/
def IndexOf {T : Type} [DecidableEq T] (s : List T) (val : T) : Int :=
  indexOfGo val s 0

/-- LastIndexOf: Go loop `for i, j := len(s)-1, 0; i >= 0; i, j = i-1, j+1`
returning `j` when `s[i] == val`.  Since `j = len(s)-1-i` throughout, the
loop is embedded with `k` counting how many indices `i = k-1, …, 0` are
still to be examined. -/
def lastIndexOfGo {T : Type} [DecidableEq T] (s : List T) (val : T) : Nat → Int
  | 0 => -1
  | k + 1 =>
    if s.get? k = some val then (s.length : Int) - 1 - (k : Int)
    else lastIndexOfGo s val k

/-- LastIndexOf returns the index of the last occurrence of value
(Go source, find.go); the loop starts at `i = len(s)-1`. -/
def LastIndexOf {T : Type} [DecidableEq T] (s : List T) (val : T) : Int :=
  lastIndexOfGo s val s.length

/-- FindMinBy (Go source, find.go): `var min T; if len(s) > 0 { min = fn(s[0]) }`
followed by the loop `for i… { if s[i] < fn(min) { min = s[i] } }`.
The Go zero value of the generic result type is modelled by `default`. -/
def FindMinBy {T : Type} [LinearOrder T] [Inhabited T] (s : List T) (fn : T → T) : T :=
  let min0 : T := if h : 0 < s.length then fn (s.get ⟨0, h⟩) else default
  s.foldl (fun mn x => if x < fn mn then x else mn) min0

/-- FindMaxBy (Go source, find.go): its body declares `var min T`,
initializes it with `fn(s[0])` when the slice is non-empty, and runs the
loop `if s[i] < fn(min) { min = s[i] }` — character for character the
body of `FindMinBy`. -/
def FindMaxBy {T : Type} [LinearOrder T] [Inhabited T] (s : List T) (fn : T → T) : T :=
  let min0 : T := if h : 0 < s.length then fn (s.get ⟨0, h⟩) else default
  s.foldl (fun mn x => if x < fn mn then x else mn) min0

/-- Modelled from the spec: the repository's `Abs` helper is not among the
provided source files; the claim and the `Nth` bound checks use it as the
absolute value `|nth|`, which is what is defined here. -/
def Abs (x : Int) : Int := if x < 0 then -x else x

/-- Bound (Go source, find.go): a `Min`/`Max` pair, instantiated by `Nth`
at the signed integer type. -/
structure Bound where
  Min : Int
  Max : Int

/-- Enclose checks if an element is inside the bounds (Go source, find.go):
`Abs(nth) >= b.Min && Abs(nth) <= b.Max`. -/
def Bound.Enclose (b : Bound) (nth : Int) : Bool :=
  decide (Abs nth ≥ b.Min) && decide (Abs nth ≤ b.Max)

/-- Result of the Go function `Nth`: a value, the explicit error return
("out of slice bounds"), or a run-time index fault (the panic Go raises
when the single slice access `slice[i]` is performed with `i` outside
`0 ≤ i < len(slice)`). -/
inductive NthResult (T : Type) where
  | ok (v : T) : NthResult T
  | outOfBoundsError : NthResult T
  | indexFault : NthResult T
deriving DecidableEq

/-- A Go slice access `slice[i]` with an `int` index: the value when
`0 ≤ i < len slice`, `none` (a run-time fault) otherwise. -/
def goIndex {T : Type} (s : List T) (i : Int) : Option T :=
  if h : 0 ≤ i ∧ i.toNat < s.length then some (s.get ⟨i.toNat, h.2⟩) else none

/-- Nth (Go source, find.go): builds `bounds := Bound{0, len(slice)}`,
returns the error when `Abs(nth) > bounds.Max`, returns `slice[nth]` when
`bounds.Enclose(nth)` and `nth >= 0`, and otherwise falls through to
`slice[len(slice)-Abs(nth)]`. -/
def Nth {T : Type} (slice : List T) (nth : Int) : NthResult T :=
  let bounds : Bound := ⟨0, (slice.length : Int)⟩
  if Abs nth > bounds.Max then .outOfBoundsError
  else if bounds.Enclose nth && decide (0 ≤ nth) then
    match goIndex slice nth with
    | some v => .ok v
    | none => .indexFault
  else
    match goIndex slice ((slice.length : Int) - Abs nth) with
    | some v => .ok v
    | none => .indexFault

/-! ### Lemmas about the slice helpers -/

theorem lastIndexOfGo_spec {T : Type} [DecidableEq T] (s : List T) (v : T)
    (i : Nat) (hi : i < s.length) (hv : s.get ⟨i, hi⟩ = v)
    (hmax : ∀ j (hj : j < s.length), s.get ⟨j, hj⟩ = v → j ≤ i) :
    ∀ k, i < k → k ≤ s.length → lastIndexOfGo s v k = (s.length : Int) - 1 - (i : Int) := by
  intro k
  induction k with
  | zero => omega
  | succ k ih =>
    intro hik hk
    by_cases hgk : s.get? k = some v
    · have hklen : k < s.length := by omega
      have : s.get ⟨k, hklen⟩ = v := by
        rwa [List.get?_eq_get hklen, Option.some.injEq] at hgk
      have hki : k ≤ i := hmax k hklen this
      have : k = i := by omega
      subst this
      simp only [lastIndexOfGo]
      rw [if_pos hgk]
    · have hne : k ≠ i := by
        intro h
        subst h
        rw [List.get?_eq_get hi] at hgk
        exact hgk (by rw [hv])
      have : lastIndexOfGo s v (k + 1) = lastIndexOfGo s v k := by
        simp only [lastIndexOfGo]
        rw [if_neg hgk]
      rw [this]
      exact ih (by omega) (by omega)

theorem lastIndexOfGo_not_mem {T : Type} [DecidableEq T] (s : List T) (v : T)
    (hv : v ∉ s) : ∀ k, lastIndexOfGo s v k = -1 := by
  intro k
  induction k with
  | zero => rfl
  | succ k ih =>
    have hgk : s.get? k ≠ some v := by
      intro h
      exact hv (List.get?_mem h)
    simp only [lastIndexOfGo]
    rw [if_neg hgk]
    exact ih

theorem indexOfGo_spec {T : Type} [DecidableEq T] (v : T) :
    ∀ (l : List T) (k : Nat) (i : Nat) (hi : i < l.length), l.get ⟨i, hi⟩ = v →
      (∀ j (hj : j < l.length), l.get ⟨j, hj⟩ = v → i ≤ j) →
      indexOfGo v l k = (k : Int) + (i : Int) := by
  intro l
  induction l with
  | nil => intro k i hi; simp at hi
  | cons x xs ih =>
    intro k i hi hv hmin
    by_cases hx : x = v
    · have h0 : (x :: xs).get ⟨0, by simp⟩ = v := hx
      have : i ≤ 0 := hmin 0 (by simp) h0
      have hi0 : i = 0 := by omega
      subst hi0
      simp [indexOfGo, hx]
    · have hi0 : i ≠ 0 := by
        intro h
        subst h
        exact hx hv
      obtain ⟨i', rfl⟩ : ∃ i', i = i' + 1 := ⟨i - 1, by omega⟩
      have hi' : i' < xs.length := by simpa using hi
      have hv' : xs.get ⟨i', hi'⟩ = v := hv
      have hmin' : ∀ j (hj : j < xs.length), xs.get ⟨j, hj⟩ = v → i' ≤ j := by
        intro j hj hvj
        have := hmin (j + 1) (by simpa using hj) hvj
        omega
      have := ih (k + 1) i' hi' hv' hmin'
      simp only [indexOfGo, hx, if_false]
      rw [this]
      push_cast
      ring

/-- C10: LastIndexOf returns the distance of the last occurrence from the
end of the slice, i.e. `len(s) - 1 - i` where `i` is the largest index with
`s[i] = v` (not the index `i` itself), and `-1` when `v` does not occur;
IndexOf, by contrast, returns the forward index of the first occurrence. -/
theorem lastIndexOf_distance_from_end {T : Type} [DecidableEq T] (s : List T) (v : T) :
    (∀ i (hi : i < s.length), s.get ⟨i, hi⟩ = v →
       (∀ j (hj : j < s.length), s.get ⟨j, hj⟩ = v → j ≤ i) →
       LastIndexOf s v = (s.length : Int) - 1 - (i : Int))
    ∧ (v ∉ s → LastIndexOf s v = -1)
    ∧ (∀ i (hi : i < s.length), s.get ⟨i, hi⟩ = v →
       (∀ j (hj : j < s.length), s.get ⟨j, hj⟩ = v → i ≤ j) →
       IndexOf s v = (i : Int)) := by
  refine ⟨?_, ?_, ?_⟩
  · intro i hi hv hmax
    exact lastIndexOfGo_spec s v i hi hv hmax s.length hi le_rfl
  · intro hv
    exact lastIndexOfGo_not_mem s v hv s.length
  · intro i hi hv hmin
    have := indexOfGo_spec v s 0 i hi hv hmin
    simpa [IndexOf] using this

theorem lastIndexOf_distance_from_end_witness :
    LastIndexOf ([1, 2, 1] : List Nat) 1 = (([1, 2, 1] : List Nat).length : Int) - 1 - ((2 : Nat) : Int) :=
  (lastIndexOf_distance_from_end ([1, 2, 1] : List Nat) 1).1 2 (by decide) (by decide)
    (by decide)

/-- C8: FindMaxBy returns exactly the same value as FindMinBy on every
slice and callback — both initialize the accumulator with `fn(s[0])`
(the zero value for an empty slice) and replace it with `s[i]` whenever
`s[i] < fn(acc)`; in particular FindMaxBy of `[1, 2, 3]` under the
identity callback is `1`, not the maximum `3`. -/
theorem findMaxBy_eq_findMinBy {T : Type} [LinearOrder T] [Inhabited T]
    (s : List T) (fn : T → T) :
    FindMaxBy s fn = FindMinBy s fn ∧
    FindMaxBy ([1, 2, 3] : List Int) (fun x => x) = 1 := by
  constructor
  · rfl
  · rfl

/-- C9: the claim says every non-error run of `Nth` performs an in-bounds
slice access, including `nth = len(slice)`.  The code disproves it: on the
one-element slice `[10]` with `nth = 1` the guard `Abs(nth) > len` is not
taken and the access `slice[1]` is out of range (a run-time fault), and the
same happens for the empty slice at `nth = 0`; the neighbouring inputs show
the other branches behaving as documented. -/
theorem nth_boundary_index_fault :
    Nth ([10] : List Int) 1 = .indexFault
    ∧ Nth ([] : List Int) 0 = .indexFault
    ∧ Nth ([10] : List Int) 0 = .ok 10
    ∧ Nth ([10] : List Int) (-1) = .ok 10
    ∧ Nth ([10] : List Int) 2 = .outOfBoundsError
    ∧ Nth ([10] : List Int) (-2) = .outOfBoundsError := by
  refine ⟨rfl, rfl, rfl, rfl, rfl, rfl⟩

/-! ## The ternary search tree (trie package)

The implementation file `trie.go` is absent from the provided source
tree (only its gomarkdoc-generated README is present), so the
definitions in this section are modelled from the specification's
algorithm description (spec sections 3, 4.1, 4.2 and 7). -/

/-- Modelled from the spec (section 3, `Node`; `trie.go` is missing from
the source tree): an internal tree vertex holding one character
(`symbol`), three optional child references — `nil` plays the role of
Go's nil `*node` — a terminal-validity flag, and the key/value pair,
meaningful only on terminal nodes (`val = none` models the Go zero
value of a node whose pair was never written). -/
inductive TrieNode (V : Type) where
  | nil : TrieNode V
  | node (symbol : Char) (left mid right : TrieNode V) (isTerminal : Bool)
      (key : List Char) (val : Option V) : TrieNode V
deriving DecidableEq

/-- The terminal flag of a node; `nil` carries `false`. -/
def TrieNode.terminal {V : Type} : TrieNode V → Bool
  | .nil => false
  | .node _ _ _ _ b _ _ => b

/-- The stored value of a node (`none` on `nil` and on nodes whose pair
was never written). -/
def TrieNode.value {V : Type} : TrieNode V → Option V
  | .nil => none
  | .node _ _ _ _ _ _ v => v

/-- The `mid` child of a node; `nil` for `nil`. -/
def TrieNode.midChild {V : Type} : TrieNode V → TrieNode V
  | .nil => .nil
  | .node _ _ m _ _ _ _ => m

/-- Modelled from the spec (section 4.1, `put`, absent-node case;
`trie.go` is missing from the source tree): on an absent node the spec's
`put` creates a node holding `key[depth]` and, since the created symbol
equals `key[depth]`, keeps descending through fresh `mid` nodes until the
last character, which it marks terminal with the key/value pair.
`putNew` builds exactly that chain from the remaining characters
`cs = key[depth:]`; the fresh intermediate nodes carry the Go zero
values (`isTerminal = false`, empty key, no value). -/
def TrieNode.putNew {V : Type} (key : List Char) (v : V) :
    (cs : List Char) → cs ≠ [] → TrieNode V
  | [c], _ => .node c .nil .nil .nil true key (some v)
  | c :: c2 :: rest, _ =>
    .node c .nil (TrieNode.putNew key v (c2 :: rest) (by simp)) .nil false [] none

/-- Modelled from the spec (section 4.1, `put`; `trie.go` is missing from
the source tree): recursive insert.  If the node is absent, the fresh
chain for `key[depth:]` is created (`putNew`, a new terminal node, so
the size must grow); with `c = key[depth]`, the routine recurses left
when `c < symbol`, right when `c > symbol`, into `mid` with `depth+1`
when equal and `depth < len(key)-1`, and otherwise marks this node
terminal, overwrites its key/value, and reports (second component)
whether the Trie's size must grow, i.e. whether `isTerminal` was
previously false.  Each recursive call reassigns the corresponding
child slot to the returned node. -/
def TrieNode.put {V : Type} (n : TrieNode V) (key : List Char) (v : V) (d : Nat)
    (hd : d < key.length) : TrieNode V × Bool :=
  match n with
  | .nil =>
    (TrieNode.putNew key v (key.drop d)
      (List.length_pos.mp (by rw [List.length_drop]; omega)), true)
  | .node sym l m r b k val =>
    let c := key.get ⟨d, hd⟩
    if c < sym then
      let res := TrieNode.put l key v d hd
      (.node sym res.1 m r b k val, res.2)
    else if sym < c then
      let res := TrieNode.put r key v d hd
      (.node sym l m res.1 b k val, res.2)
    else if _h : d < key.length - 1 then
      let res := TrieNode.put m key v (d + 1) (by omega)
      (.node sym l res.1 r b k val, res.2)
    else
      (.node sym l m r true key (some v), !b)

/-- Modelled from the spec (section 4.1, `get`; `trie.go` is missing from
the source tree): an absent node means not found; `key[depth]` is
compared against `symbol` exactly as in `put`, descending
left/right/mid accordingly; on an exact character match at the last
index the routine returns this node together with
`found = isTerminal`. -/
def TrieNode.get {V : Type} (n : TrieNode V) (key : List Char) (d : Nat)
    (hd : d < key.length) : TrieNode V × Bool :=
  match n with
  | .nil => (.nil, false)
  | .node sym l m r b k val =>
    let c := key.get ⟨d, hd⟩
    if c < sym then TrieNode.get l key d hd
    else if sym < c then TrieNode.get r key d hd
    else if _h : d < key.length - 1 then TrieNode.get m key (d + 1) (by omega)
    else (.node sym l m r b k val, b)

/-- Modelled from the spec (section 4.1, `collect`; `trie.go` is missing
from the source tree): in-order traversal used by the prefix queries.
It enqueues, in this order, the keys of the `left` subtree with the
same accumulated prefix, then `accumulatedPrefix ++ [symbol]` when the
node is terminal, then the keys of `mid` under the extended prefix, and
finally the keys of `right`.  The queue collaborator is modelled as the
list of enqueued keys in FIFO (dequeue) order. -/
def TrieNode.collect {V : Type} : TrieNode V → List Char → List (List Char)
  | .nil, _ => []
  | .node sym l m r b _ _, pre =>
    l.collect pre ++ (if b then [pre ++ [sym]] else []) ++
      m.collect (pre ++ [sym]) ++ r.collect pre

/-- Modelled from the spec (section 4.2, `LongestPrefix`; `trie.go` is
missing from the source tree): the walk proceeds by character exactly
like `get` while `d < len(query)`, and `best` tracks the length of the
longest prefix of `query` seen so far at which a terminal node was
passed (a terminal node passed on an exact character match at index `d`
yields the prefix length `d + 1`). -/
def TrieNode.longestPrefixLen {V : Type} : TrieNode V → List Char → Nat → Nat → Nat
  | .nil, _, _, best => best
  | .node sym l m r b _ _, query, d, best =>
    if h : d < query.length then
      let c := query.get ⟨d, h⟩
      if c < sym then l.longestPrefixLen query d best
      else if sym < c then r.longestPrefixLen query d best
      else m.longestPrefixLen query (d + 1) (if b then d + 1 else best)
    else best

/-- Modelled from the spec (section 7): the only error kind surfaced by
the trie core, Go's `ErrorNotFound`. -/
inductive TrieErr where
  | notFound : TrieErr
deriving DecidableEq

/-- Modelled from the spec (section 3, `Trie`; `trie.go` is missing from
the source tree): the root node (absent for an empty tree) and the key
count.  The concurrency guard and the queue factory have no observable
sequential behavior and are not part of the state; the queue a query
returns is modelled as the list of enqueued keys in FIFO order. -/
structure Trie (V : Type) where
  root : TrieNode V
  size : Nat
deriving DecidableEq

/-- Modelled from the spec (section 4.2, `New`): an empty trie, size 0. -/
def Trie.new {V : Type} : Trie V := ⟨.nil, 0⟩

/-- Modelled from the spec (section 4.2, `Put`): inserts or updates; the
key must be non-empty (spec section 9 leaves the empty key undefined,
so the model takes non-emptiness as a precondition).  The size grows by
one exactly when the node-level `put` reports a genuinely new terminal
node. -/
def Trie.Put {V : Type} (t : Trie V) (key : List Char) (v : V) (h : key ≠ []) : Trie V :=
  let r := t.root.put key v 0 (List.length_pos.mpr h)
  ⟨r.1, t.size + (if r.2 then 1 else 0)⟩

/-- Modelled from the spec (section 4.2, `Get`): `found = false` together
with a zero-valued result (`none`) when the key is absent or only a
prefix of stored keys; otherwise the stored value and `true`. -/
def Trie.Get {V : Type} (t : Trie V) (key : List Char) (h : key ≠ []) : Option V × Bool :=
  let r := t.root.get key 0 (List.length_pos.mpr h)
  if r.2 then (r.1.value, true) else (none, false)

/-- Modelled from the spec (section 4.2, `Contains`): equivalent to the
`found` component of `Get`. -/
def Trie.Contains {V : Type} (t : Trie V) (key : List Char) (h : key ≠ []) : Bool :=
  (t.Get key h).2

/-- Modelled from the spec (section 4.2, `Size`): the current key count. -/
def Trie.Size {V : Type} (t : Trie V) : Nat := t.size

/-- Modelled from the spec (section 4.2, `LongestPrefix`): returns the
substring of `query` of the tracked length, and fails with `NotFound`
when no terminal node lay along the traversal (tracked length 0). -/
def Trie.LongestPrefix {V : Type} (t : Trie V) (query : List Char) :
    Except TrieErr (List Char) :=
  let len := t.root.longestPrefixLen query 0 0
  if len = 0 then .error .notFound else .ok (query.take len)

/-- Modelled from the spec (section 4.2, `StartsWith`): an empty prefix is
treated as matching from the root; otherwise the node corresponding to
the last character of the prefix is located via `get`-style descent
(terminal status not required), `collect` runs rooted at that node's
`mid` child with the prefix as accumulated base, and a failed descent
yields `NotFound`. -/
def Trie.StartsWith {V : Type} (t : Trie V) (p : List Char) :
    Except TrieErr (List (List Char)) :=
  if h : p = [] then .ok (t.root.collect [])
  else
    match t.root.get p 0 (List.length_pos.mpr h) with
    | (.nil, _) => .error .notFound
    | (.node _ _ m _ _ _ _, _) => .ok (m.collect p)

/-- Modelled from the spec (section 4.2, `Keys`): collects all the
existing keys in the set — equivalent to `StartsWith` of the empty
prefix. -/
def Trie.Keys {V : Type} (t : Trie V) : Except TrieErr (List (List Char)) :=
  .ok (t.root.collect [])

/-- A trie state that can arise in use: built from `Trie.new` by a finite
sequence of `Put` calls (the spec's only mutator; there is no
deletion). -/
inductive Trie.Reachable {V : Type} : Trie V → Prop where
  | new : Trie.Reachable Trie.new
  | put {t : Trie V} {key : List Char} {v : V} (h : key ≠ []) :
      Trie.Reachable t → Trie.Reachable (t.Put key v h)

/-! ### Proof infrastructure for the trie

`walk` is a proof-side restatement of the `get` descent on the list of
characters still to be matched; `walk_spec` ties it to the modelled
`get`.  All structural lemmas about the tree are proved against `walk`
and transported. -/

/-- The `get`-style descent on the remaining characters `cs`: descend
left/right without consuming a character, consume one character and move
to `mid` on an equal match, and stop at the node matched by the last
character.  `nil` means the descent fell off the tree. -/
def TrieNode.walk {V : Type} : TrieNode V → List Char → TrieNode V
  | n, [] => n
  | .nil, _ :: _ => .nil
  | .node sym l m r b k val, c :: rest =>
    if c < sym then TrieNode.walk l (c :: rest)
    else if sym < c then TrieNode.walk r (c :: rest)
    else
      match rest with
      | [] => .node sym l m r b k val
      | c2 :: rest2 => TrieNode.walk m (c2 :: rest2)

theorem walk_nil {V : Type} (cs : List Char) : TrieNode.walk (V := V) .nil cs = .nil := by
  cases cs <;> rfl

theorem walk_spec {V : Type} (n : TrieNode V) (key : List Char) (d : Nat)
    (hd : d < key.length) :
    n.get key d hd = (n.walk (key.drop d), (n.walk (key.drop d)).terminal) := by
  induction n generalizing d with
  | nil => rw [walk_nil]; rfl
  | node sym l m r b k val ihl ihm ihr =>
    have hcons : key.drop d = key.get ⟨d, hd⟩ :: key.drop (d + 1) := by
      rw [List.drop_eq_getElem_cons hd]
      rfl
    by_cases h3 : d < key.length - 1
    · have hd1 : d + 1 < key.length := by omega
      have hcons2 : key.drop (d + 1) = key.get ⟨d + 1, hd1⟩ :: key.drop (d + 2) := by
        rw [List.drop_eq_getElem_cons hd1]
        rfl
      rw [TrieNode.get, hcons, hcons2]
      simp only [TrieNode.walk]
      by_cases h1 : key.get ⟨d, hd⟩ < sym
      · rw [if_pos h1, if_pos h1, ← hcons2, ← hcons]
        exact ihl d hd
      · rw [if_neg h1, if_neg h1]
        by_cases h2 : sym < key.get ⟨d, hd⟩
        · rw [if_pos h2, if_pos h2, ← hcons2, ← hcons]
          exact ihr d hd
        · rw [if_neg h2, if_neg h2, dif_pos h3, ← hcons2]
          exact ihm (d + 1) hd1
    · have hnil : key.drop (d + 1) = [] := by
        rw [List.drop_eq_nil_iff]
        omega
      have hdrop : key.drop d = [key.get ⟨d, hd⟩] := by
        rw [hcons, hnil]
      rw [TrieNode.get, hdrop]
      simp only [TrieNode.walk]
      by_cases h1 : key.get ⟨d, hd⟩ < sym
      · rw [if_pos h1, if_pos h1, ← hdrop]
        exact ihl d hd
      · rw [if_neg h1, if_neg h1]
        by_cases h2 : sym < key.get ⟨d, hd⟩
        · rw [if_pos h2, if_pos h2, ← hdrop]
          exact ihr d hd
        · rw [if_neg h2, if_neg h2, dif_neg h3]
          rfl

theorem walk_putNew {V : Type} (key : List Char) (v : V) :
    ∀ (cs : List Char) (h : cs ≠ []),
      ((TrieNode.putNew (V := V) key v cs h).walk cs).terminal = true ∧
      ((TrieNode.putNew (V := V) key v cs h).walk cs).value = some v := by
  intro cs
  induction cs with
  | nil => intro h; exact absurd rfl h
  | cons c rest ih =>
    intro h
    cases rest with
    | nil =>
      simp [TrieNode.putNew, TrieNode.walk, TrieNode.terminal, TrieNode.value]
    | cons c2 rest2 =>
      simp only [TrieNode.putNew, TrieNode.walk]
      rw [if_neg (lt_irrefl c), if_neg (lt_irrefl c)]
      exact ih (by simp)

theorem put_get {V : Type} (n : TrieNode V) (key : List Char) (v : V) (d : Nat)
    (hd : d < key.length) :
    (((n.put key v d hd).1.get key d hd).2 = true) ∧
    (((n.put key v d hd).1.get key d hd).1.value = some v) := by
  induction n, key, v, d, hd using TrieNode.put.induct with
  | case1 key v d hd =>
    simp only [TrieNode.put]
    rw [walk_spec]
    exact walk_putNew key v (key.drop d) _
  | case2 key v d hd sym l m r b k val c h1 ih =>
    simp only [TrieNode.put, if_pos h1]
    rw [TrieNode.get]
    rw [if_pos h1]
    exact ih
  | case3 key v d hd sym l m r b k val c h1 h2 ih =>
    simp only [TrieNode.put, if_neg h1, if_pos h2]
    rw [TrieNode.get]
    rw [if_neg h1, if_pos h2]
    exact ih
  | case4 key v d hd sym l m r b k val c h1 h2 h3 ih =>
    simp only [TrieNode.put, if_neg h1, if_neg h2, dif_pos h3]
    rw [TrieNode.get]
    rw [if_neg h1, if_neg h2, dif_pos h3]
    exact ih
  | case5 key v d hd sym l m r b k val c h1 h2 h3 =>
    simp only [TrieNode.put, if_neg h1, if_neg h2, dif_neg h3]
    rw [TrieNode.get]
    rw [if_neg h1, if_neg h2, dif_neg h3]
    exact ⟨rfl, rfl⟩

theorem put_flag {V : Type} (n : TrieNode V) (key : List Char) (v : V) (d : Nat)
    (hd : d < key.length) :
    (n.put key v d hd).2 = !(n.get key d hd).2 := by
  induction n, key, v, d, hd using TrieNode.put.induct with
  | case1 key v d hd =>
    simp [TrieNode.put, TrieNode.get]
  | case2 key v d hd sym l m r b k val c h1 ih =>
    simp only [TrieNode.put, if_pos h1]
    rw [TrieNode.get, if_pos h1]
    exact ih
  | case3 key v d hd sym l m r b k val c h1 h2 ih =>
    simp only [TrieNode.put, if_neg h1, if_pos h2]
    rw [TrieNode.get, if_neg h1, if_pos h2]
    exact ih
  | case4 key v d hd sym l m r b k val c h1 h2 h3 ih =>
    simp only [TrieNode.put, if_neg h1, if_neg h2, dif_pos h3]
    rw [TrieNode.get, if_neg h1, if_neg h2, dif_pos h3]
    exact ih
  | case5 key v d hd sym l m r b k val c h1 h2 h3 =>
    simp only [TrieNode.put, if_neg h1, if_neg h2, dif_neg h3]
    rw [TrieNode.get, if_neg h1, if_neg h2, dif_neg h3]

theorem contains_eq_get_flag {V : Type} (t : Trie V) (k : List Char) (h : k ≠ []) :
    t.Contains k h = (t.root.get k 0 (List.length_pos.mpr h)).2 := by
  simp only [Trie.Contains, Trie.Get]
  by_cases hb : (t.root.get k 0 (List.length_pos.mpr h)).2 <;> simp [hb]

theorem trie_get_after_put {V : Type} (t : Trie V) (key : List Char) (v : V) (h : key ≠ []) :
    (t.Put key v h).Get key h = (some v, true) := by
  have hp := put_get t.root key v 0 (List.length_pos.mpr h)
  simp only [Trie.Get, Trie.Put] at *
  rw [hp.1, hp.2]
  simp

theorem trie_size_after_put {V : Type} (t : Trie V) (key : List Char) (v : V) (h : key ≠ []) :
    (t.Put key v h).Size = t.Size + (if t.Contains key h then 0 else 1) := by
  have hf := put_flag t.root key v 0 (List.length_pos.mpr h)
  rw [contains_eq_get_flag]
  simp only [Trie.Put, Trie.Size]
  rw [hf]
  by_cases hb : (t.root.get key 0 (List.length_pos.mpr h)).2 <;> simp [hb]

/-- C1: for every non-empty key and every value, after `Put(k, v)` on any
trie, `Get(k)` returns the stored value together with `found = true`
(the zero-result pair is never taken because the node-level `put` leaves
a terminal node holding `some v` exactly where the node-level `get`
descends). -/
theorem trie_put_then_get_roundtrip {V : Type} (t : Trie V) (key : List Char) (v : V)
    (h : key ≠ []) :
    (t.Put key v h).Get key h = (some v, true) :=
  trie_get_after_put t key v h

theorem trie_put_then_get_roundtrip_witness :
    ((Trie.new (V := Nat)).Put ['a'] 3 (by decide)).Get ['a'] (by decide) = (some 3, true) :=
  trie_put_then_get_roundtrip (Trie.new (V := Nat)) ['a'] 3 (by decide)

/-- C2: `Put` of a key the trie does not contain grows `Size()` by exactly
one; a second `Put` of the same key (an update) leaves `Size()` unchanged
and makes `Get` return the new value with `found = true`. -/
theorem trie_put_size_semantics {V : Type} (t : Trie V) (k : List Char) (v v2 : V)
    (h : k ≠ []) :
    (t.Contains k h = false → (t.Put k v h).Size = t.Size + 1)
    ∧ (t.Contains k h = true → (t.Put k v h).Size = t.Size)
    ∧ ((t.Put k v h).Put k v2 h).Size = (t.Put k v h).Size
    ∧ ((t.Put k v h).Put k v2 h).Get k h = (some v2, true) := by
  refine ⟨?_, ?_, ?_, ?_⟩
  · intro hc
    rw [trie_size_after_put, hc]
    simp
  · intro hc
    rw [trie_size_after_put, hc]
    simp
  · have hc : (t.Put k v h).Contains k h = true := by
      rw [contains_eq_get_flag]
      have := put_get t.root k v 0 (List.length_pos.mpr h)
      simpa [Trie.Put] using this.1
    rw [trie_size_after_put, hc]
    simp
  · exact trie_get_after_put (t.Put k v h) k v2 h

theorem trie_put_size_semantics_witness :
    ((Trie.new (V := Nat)).Put ['a'] 1 (by decide)).Size = (Trie.new (V := Nat)).Size + 1
    ∧ (((Trie.new (V := Nat)).Put ['a'] 1 (by decide)).Put ['a'] 2 (by decide)).Size
        = ((Trie.new (V := Nat)).Put ['a'] 1 (by decide)).Size
    ∧ (((Trie.new (V := Nat)).Put ['a'] 1 (by decide)).Put ['a'] 2 (by decide)).Get ['a'] (by decide)
        = (some 2, true) := by
  have h := trie_put_size_semantics (Trie.new (V := Nat)) ['a'] 1 2 (by decide)
  exact ⟨h.1 (by decide), h.2.2.1, h.2.2.2⟩

/-- Strict lexicographic (dictionary) order on keys, the "ascending
lexicographic order" of the spec: compare the first characters, and fall
through to the tails on a tie; a proper prefix precedes its
extensions. -/
def lexLt : List Char → List Char → Bool
  | [], [] => false
  | [], _ :: _ => true
  | _ :: _, [] => false
  | x :: xs, y :: ys => if x < y then true else if y < x then false else lexLt xs ys

theorem lexLt_append_left : ∀ (pre a b : List Char), lexLt (pre ++ a) (pre ++ b) = lexLt a b := by
  intro pre
  induction pre with
  | nil => intro a b; rfl
  | cons c cs ih =>
    intro a b
    simp only [List.cons_append, lexLt]
    rw [if_neg (lt_irrefl c), if_neg (lt_irrefl c)]
    exact ih a b

theorem lexLt_head_lt {c c2 : Char} (h : c < c2) (s s2 : List Char) :
    lexLt (c :: s) (c2 :: s2) = true := by
  simp only [lexLt]
  rw [if_pos h]

theorem lexLt_nil_cons (c : Char) (s : List Char) : lexLt [] (c :: s) = true := rfl

/-- The symbols of the binary-search layer rooted at a node: the node's
own symbol together with those of its `left`/`right` subtrees (the
`mid` subtree belongs to the next character position and is excluded).
These are exactly the characters with which a key reaching this layer
can continue. -/
def TrieNode.layerSyms {V : Type} : TrieNode V → List Char
  | .nil => []
  | .node sym l _ r _ _ _ => l.layerSyms ++ sym :: r.layerSyms

/-- The ternary-search-tree ordering invariant (spec section 3: `left`
and `right` encode less-than/greater-than among sibling branches): every
symbol in the left sibling layer is smaller than the node's symbol,
every symbol in the right sibling layer is larger, recursively
everywhere. -/
def TrieNode.inv {V : Type} : TrieNode V → Prop
  | .nil => True
  | .node sym l m r _ _ _ =>
    (∀ c ∈ l.layerSyms, c < sym) ∧ (∀ c ∈ r.layerSyms, sym < c) ∧ l.inv ∧ m.inv ∧ r.inv

/-- Every node of a trie built purely by insertions lies on the path of
some stored key: it is terminal itself or its `mid` subtree is
non-empty, recursively everywhere. -/
def TrieNode.live {V : Type} : TrieNode V → Prop
  | .nil => True
  | .node _ l m r b _ _ => (b = true ∨ m ≠ .nil) ∧ l.live ∧ m.live ∧ r.live

theorem collect_shape {V : Type} (n : TrieNode V) :
    ∀ (pre x : List Char), x ∈ n.collect pre →
      ∃ c s, x = pre ++ c :: s ∧ c ∈ n.layerSyms := by
  induction n with
  | nil => intro pre x hx; simp [TrieNode.collect] at hx
  | node sym l m r b k val ihl ihm ihr =>
    intro pre x hx
    simp only [TrieNode.collect, List.mem_append] at hx
    rcases hx with ((hx | hx) | hx) | hx
    · obtain ⟨c, s, rfl, hc⟩ := ihl pre x hx
      exact ⟨c, s, rfl, by simp [TrieNode.layerSyms, hc]⟩
    · by_cases hb : b = true
      · rw [if_pos hb, List.mem_singleton] at hx
        subst hx
        exact ⟨sym, [], by simp, by simp [TrieNode.layerSyms]⟩
      · rw [if_neg hb] at hx
        simp at hx
    · obtain ⟨c, s, hx2, hc⟩ := ihm (pre ++ [sym]) x hx
      refine ⟨sym, c :: s, ?_, by simp [TrieNode.layerSyms]⟩
      rw [hx2, List.append_assoc]
      rfl
    · obtain ⟨c, s, rfl, hc⟩ := ihr pre x hx
      exact ⟨c, s, rfl, by simp [TrieNode.layerSyms, hc]⟩

theorem walk_node_cons {V : Type} (sym : Char) (l m r : TrieNode V) (b : Bool)
    (k : List Char) (val : Option V) (c : Char) (rest : List Char) :
    (TrieNode.node sym l m r b k val).walk (c :: rest) =
      if c < sym then l.walk (c :: rest)
      else if sym < c then r.walk (c :: rest)
      else
        match rest with
        | [] => TrieNode.node sym l m r b k val
        | c2 :: rest2 => m.walk (c2 :: rest2) := by
  cases rest <;> rfl

theorem collect_sound {V : Type} (n : TrieNode V) :
    ∀ (pre cs : List Char), cs ≠ [] → (n.walk cs).terminal = true →
      pre ++ cs ∈ n.collect pre := by
  induction n with
  | nil =>
    intro pre cs hcs hterm
    rw [walk_nil] at hterm
    simp [TrieNode.terminal] at hterm
  | node sym l m r b k val ihl ihm ihr =>
    intro pre cs hcs hterm
    obtain ⟨c, rest, rfl⟩ : ∃ c rest, cs = c :: rest := by
      cases cs with
      | nil => exact absurd rfl hcs
      | cons c rest => exact ⟨c, rest, rfl⟩
    rw [walk_node_cons] at hterm
    simp only [TrieNode.collect, List.mem_append]
    by_cases h1 : c < sym
    · rw [if_pos h1] at hterm
      exact Or.inl (Or.inl (Or.inl (ihl pre (c :: rest) (by simp) hterm)))
    · rw [if_neg h1] at hterm
      by_cases h2 : sym < c
      · rw [if_pos h2] at hterm
        exact Or.inr (ihr pre (c :: rest) (by simp) hterm)
      · rw [if_neg h2] at hterm
        have hcsym : c = sym := le_antisymm (le_of_not_lt h2) (le_of_not_lt h1)
        subst hcsym
        cases rest with
        | nil =>
          have hb : b = true := hterm
          refine Or.inl (Or.inl (Or.inr ?_))
          rw [if_pos hb]
          simp
        | cons c2 rest2 =>
          refine Or.inl (Or.inr ?_)
          have := ihm (pre ++ [c]) (c2 :: rest2) (by simp) hterm
          simpa [List.append_assoc] using this

theorem collect_complete {V : Type} (n : TrieNode V) :
    ∀ (pre cs : List Char), n.inv → cs ≠ [] → pre ++ cs ∈ n.collect pre →
      (n.walk cs).terminal = true := by
  induction n with
  | nil =>
    intro pre cs _ _ hmem
    simp [TrieNode.collect] at hmem
  | node sym l m r b k val ihl ihm ihr =>
    intro pre cs hinv hcs hmem
    obtain ⟨hL, hR, hil, him, hir⟩ := hinv
    obtain ⟨c, rest, rfl⟩ : ∃ c rest, cs = c :: rest := by
      cases cs with
      | nil => exact absurd rfl hcs
      | cons c rest => exact ⟨c, rest, rfl⟩
    simp only [TrieNode.collect, List.mem_append] at hmem
    rw [walk_node_cons]
    rcases hmem with ((hmem | hmem) | hmem) | hmem
    · obtain ⟨c', s', heq, hc'⟩ := collect_shape l pre _ hmem
      obtain ⟨rfl, rfl⟩ : c = c' ∧ rest = s' := by
        have h := List.append_cancel_left heq
        rw [List.cons.injEq] at h
        exact h
      have h1 : c < sym := hL c hc'
      rw [if_pos h1]
      exact ihl pre (c :: rest) hil (by simp) hmem
    · by_cases hb : b = true
      · rw [if_pos hb, List.mem_singleton] at hmem
        obtain ⟨rfl, rfl⟩ : c = sym ∧ rest = [] := by
          have h := List.append_cancel_left hmem
          rw [List.cons.injEq] at h
          exact h
        rw [if_neg (lt_irrefl c), if_neg (lt_irrefl c)]
        exact hb
      · rw [if_neg hb] at hmem
        simp at hmem
    · obtain ⟨c', s', heq, hc'⟩ := collect_shape m (pre ++ [sym]) _ hmem
      rw [List.append_assoc] at heq
      obtain ⟨rfl, hrest⟩ : c = sym ∧ rest = c' :: s' := by
        have h := List.append_cancel_left heq
        simp only [List.singleton_append, List.cons.injEq] at h
        exact h
      subst hrest
      rw [if_neg (lt_irrefl c), if_neg (lt_irrefl c)]
      have hmem2 : (pre ++ [c]) ++ (c' :: s') ∈ m.collect (pre ++ [c]) := by
        rw [List.append_assoc]
        exact hmem
      exact ihm (pre ++ [c]) (c' :: s') him (by simp) hmem2
    · obtain ⟨c', s', heq, hc'⟩ := collect_shape r pre _ hmem
      obtain ⟨rfl, rfl⟩ : c = c' ∧ rest = s' := by
        have h := List.append_cancel_left heq
        rw [List.cons.injEq] at h
        exact h
      have h2 : sym < c := hR c hc'
      rw [if_neg (asymm h2), if_pos h2]
      exact ihr pre (c :: rest) hir (by simp) hmem

theorem lexLt_cons_same (c : Char) (a b : List Char) :
    lexLt (c :: a) (c :: b) = lexLt a b := by
  simp only [lexLt]
  rw [if_neg (lt_irrefl c), if_neg (lt_irrefl c)]

theorem collect_pairwise {V : Type} (n : TrieNode V) :
    ∀ (pre : List Char), n.inv →
      (n.collect pre).Pairwise (fun a b => lexLt a b = true) := by
  induction n with
  | nil => intro pre _; simp [TrieNode.collect]
  | node sym l m r b k val ihl ihm ihr =>
    intro pre hinv
    obtain ⟨hL, hR, hil, him, hir⟩ := hinv
    have key : ∀ (x y : List Char) (cx : Char) (sx : List Char) (cy : Char) (sy : List Char),
        x = pre ++ cx :: sx → y = pre ++ cy :: sy → cx < cy → lexLt x y = true := by
      intro x y cx sx cy sy hx hy h
      subst hx
      subst hy
      rw [lexLt_append_left]
      exact lexLt_head_lt h _ _
    have shapeA : ∀ a ∈ l.collect pre, ∃ ca sa, a = pre ++ ca :: sa ∧ ca < sym := by
      intro a ha
      obtain ⟨ca, sa, rfl, hc⟩ := collect_shape l pre a ha
      exact ⟨ca, sa, rfl, hL ca hc⟩
    have shapeB : ∀ a ∈ (if b then [pre ++ [sym]] else []), a = pre ++ sym :: [] := by
      intro a ha
      by_cases hb : b = true
      · rw [if_pos hb, List.mem_singleton] at ha
        exact ha
      · rw [if_neg hb] at ha
        simp at ha
    have shapeC : ∀ a ∈ m.collect (pre ++ [sym]), ∃ sa, a = pre ++ sym :: sa ∧ sa ≠ [] := by
      intro a ha
      obtain ⟨ca, sa, hEq, _⟩ := collect_shape m (pre ++ [sym]) a ha
      refine ⟨ca :: sa, ?_, by simp⟩
      rw [hEq, List.append_assoc]
      rfl
    have shapeD : ∀ a ∈ r.collect pre, ∃ ca sa, a = pre ++ ca :: sa ∧ sym < ca := by
      intro a ha
      obtain ⟨ca, sa, rfl, hc⟩ := collect_shape r pre a ha
      exact ⟨ca, sa, rfl, hR ca hc⟩
    simp only [TrieNode.collect]
    rw [List.pairwise_append]
    refine ⟨?_, ihr pre hir, ?_⟩
    · rw [List.pairwise_append]
      refine ⟨?_, ihm (pre ++ [sym]) him, ?_⟩
      · rw [List.pairwise_append]
        refine ⟨ihl pre hil, ?_, ?_⟩
        · by_cases hb : b = true
          · rw [if_pos hb]
            simp
          · rw [if_neg hb]
            simp
        · intro a ha y hy
          obtain ⟨ca, sa, rfl, hc⟩ := shapeA a ha
          exact key _ _ ca sa sym [] rfl (shapeB y hy) hc
      · intro a ha y hy
        obtain ⟨sy, rfl, hsy⟩ := shapeC y hy
        rcases List.mem_append.mp ha with ha | ha
        · obtain ⟨ca, sa, rfl, hc⟩ := shapeA a ha
          exact key _ _ ca sa sym sy rfl rfl hc
        · rw [shapeB a ha]
          rw [lexLt_append_left, lexLt_cons_same]
          cases sy with
          | nil => exact absurd rfl hsy
          | cons c2 s2 => exact lexLt_nil_cons c2 s2
    · intro a ha y hy
      obtain ⟨cy, sy, rfl, hcy⟩ := shapeD y hy
      rcases List.mem_append.mp ha with ha | ha
      · rcases List.mem_append.mp ha with ha | ha
        · obtain ⟨ca, sa, rfl, hc⟩ := shapeA a ha
          exact key _ _ ca sa cy sy rfl rfl (lt_trans hc hcy)
        · rw [shapeB a ha]
          exact key _ _ sym [] cy sy rfl rfl hcy
      · obtain ⟨sa, rfl, _⟩ := shapeC a ha
        exact key _ _ sym sa cy sy rfl rfl hcy

theorem putNew_layerSyms {V : Type} (key : List Char) (v : V) :
    ∀ (cs : List Char) (h : cs ≠ []) (c : Char) (rest : List Char), cs = c :: rest →
      (TrieNode.putNew (V := V) key v cs h).layerSyms = [c] := by
  intro cs h c rest hEq
  subst hEq
  cases rest <;> rfl

theorem putNew_ne_nil {V : Type} (key : List Char) (v : V) :
    ∀ (cs : List Char) (h : cs ≠ []), TrieNode.putNew (V := V) key v cs h ≠ .nil := by
  intro cs h
  cases cs with
  | nil => exact absurd rfl h
  | cons c rest => cases rest <;> simp [TrieNode.putNew]

theorem putNew_inv {V : Type} (key : List Char) (v : V) :
    ∀ (cs : List Char) (h : cs ≠ []), (TrieNode.putNew (V := V) key v cs h).inv := by
  intro cs
  induction cs with
  | nil => intro h; exact absurd rfl h
  | cons c rest ih =>
    intro h
    cases rest with
    | nil =>
      exact ⟨by simp [TrieNode.layerSyms], by simp [TrieNode.layerSyms], trivial, trivial, trivial⟩
    | cons c2 rest2 =>
      exact ⟨by simp [TrieNode.layerSyms], by simp [TrieNode.layerSyms], trivial,
        ih (by simp), trivial⟩

theorem putNew_live {V : Type} (key : List Char) (v : V) :
    ∀ (cs : List Char) (h : cs ≠ []), (TrieNode.putNew (V := V) key v cs h).live := by
  intro cs
  induction cs with
  | nil => intro h; exact absurd rfl h
  | cons c rest ih =>
    intro h
    cases rest with
    | nil => exact ⟨Or.inl rfl, trivial, trivial, trivial⟩
    | cons c2 rest2 =>
      exact ⟨Or.inr (putNew_ne_nil key v (c2 :: rest2) (by simp)), trivial,
        ih (by simp), trivial⟩

theorem drop_cons_of_lt (key : List Char) (d : Nat) (hd : d < key.length) :
    key.drop d = key.get ⟨d, hd⟩ :: key.drop (d + 1) := by
  rw [List.drop_eq_getElem_cons hd]
  rfl

theorem put_layerSyms {V : Type} (n : TrieNode V) (key : List Char) (v : V) (d : Nat)
    (hd : d < key.length) :
    ∀ c ∈ ((n.put key v d hd).1).layerSyms, c = key.get ⟨d, hd⟩ ∨ c ∈ n.layerSyms := by
  induction n, key, v, d, hd using TrieNode.put.induct with
  | case1 key v d hd =>
    intro c hc
    simp only [TrieNode.put] at hc
    rw [putNew_layerSyms key v (key.drop d) _ (key.get ⟨d, hd⟩) (key.drop (d + 1))
      (drop_cons_of_lt key d hd)] at hc
    rw [List.mem_singleton] at hc
    exact Or.inl hc
  | case2 key v d hd sym l m r b k val c h1 ih =>
    intro x hx
    simp only [TrieNode.put] at hx
    rw [if_pos h1] at hx
    simp only [TrieNode.layerSyms, List.mem_append, List.mem_cons] at hx ⊢
    rcases hx with hx | hx
    · rcases ih x hx with h | h
      · exact Or.inl h
      · exact Or.inr (Or.inl h)
    · exact Or.inr (Or.inr hx)
  | case3 key v d hd sym l m r b k val c h1 h2 ih =>
    intro x hx
    simp only [TrieNode.put] at hx
    rw [if_neg h1, if_pos h2] at hx
    simp only [TrieNode.layerSyms, List.mem_append, List.mem_cons] at hx ⊢
    rcases hx with hx | hx
    · exact Or.inr (Or.inl hx)
    · rcases hx with hx | hx
      · exact Or.inr (Or.inr (Or.inl hx))
      · rcases ih x hx with h | h
        · exact Or.inl h
        · exact Or.inr (Or.inr (Or.inr h))
  | case4 key v d hd sym l m r b k val c h1 h2 h3 ih =>
    intro x hx
    simp only [TrieNode.put] at hx
    rw [if_neg h1, if_neg h2, dif_pos h3] at hx
    exact Or.inr hx
  | case5 key v d hd sym l m r b k val c h1 h2 h3 =>
    intro x hx
    simp only [TrieNode.put] at hx
    rw [if_neg h1, if_neg h2, dif_neg h3] at hx
    exact Or.inr hx

theorem put_inv {V : Type} (n : TrieNode V) (key : List Char) (v : V) (d : Nat)
    (hd : d < key.length) (hinv : n.inv) : ((n.put key v d hd).1).inv := by
  induction n, key, v, d, hd using TrieNode.put.induct with
  | case1 key v d hd =>
    simp only [TrieNode.put]
    exact putNew_inv key v _ _
  | case2 key v d hd sym l m r b k val c h1 ih =>
    obtain ⟨hL, hR, hil, him, hir⟩ := hinv
    simp only [TrieNode.put]
    rw [if_pos h1]
    refine ⟨?_, hR, ih hil, him, hir⟩
    intro x hx
    rcases put_layerSyms l key v d hd x hx with h | h
    · rw [h]
      exact h1
    · exact hL x h
  | case3 key v d hd sym l m r b k val c h1 h2 ih =>
    obtain ⟨hL, hR, hil, him, hir⟩ := hinv
    simp only [TrieNode.put]
    rw [if_neg h1, if_pos h2]
    refine ⟨hL, ?_, hil, him, ih hir⟩
    intro x hx
    rcases put_layerSyms r key v d hd x hx with h | h
    · rw [h]
      exact h2
    · exact hR x h
  | case4 key v d hd sym l m r b k val c h1 h2 h3 ih =>
    obtain ⟨hL, hR, hil, him, hir⟩ := hinv
    simp only [TrieNode.put]
    rw [if_neg h1, if_neg h2, dif_pos h3]
    exact ⟨hL, hR, hil, ih him, hir⟩
  | case5 key v d hd sym l m r b k val c h1 h2 h3 =>
    obtain ⟨hL, hR, hil, him, hir⟩ := hinv
    simp only [TrieNode.put]
    rw [if_neg h1, if_neg h2, dif_neg h3]
    exact ⟨hL, hR, hil, him, hir⟩

theorem put_ne_nil {V : Type} (n : TrieNode V) (key : List Char) (v : V) (d : Nat)
    (hd : d < key.length) : (n.put key v d hd).1 ≠ .nil := by
  cases n with
  | nil =>
    simp only [TrieNode.put]
    exact putNew_ne_nil key v _ _
  | node sym l m r b k val =>
    simp only [TrieNode.put]
    by_cases h1 : key.get ⟨d, hd⟩ < sym
    · rw [if_pos h1]
      simp
    · rw [if_neg h1]
      by_cases h2 : sym < key.get ⟨d, hd⟩
      · rw [if_pos h2]
        simp
      · rw [if_neg h2]
        by_cases h3 : d < key.length - 1
        · rw [dif_pos h3]
          simp
        · rw [dif_neg h3]
          simp

theorem put_live {V : Type} (n : TrieNode V) (key : List Char) (v : V) (d : Nat)
    (hd : d < key.length) (hlive : n.live) : ((n.put key v d hd).1).live := by
  induction n, key, v, d, hd using TrieNode.put.induct with
  | case1 key v d hd =>
    simp only [TrieNode.put]
    exact putNew_live key v _ _
  | case2 key v d hd sym l m r b k val c h1 ih =>
    obtain ⟨hbm, hll, hlm, hlr⟩ := hlive
    simp only [TrieNode.put]
    rw [if_pos h1]
    exact ⟨hbm, ih hll, hlm, hlr⟩
  | case3 key v d hd sym l m r b k val c h1 h2 ih =>
    obtain ⟨hbm, hll, hlm, hlr⟩ := hlive
    simp only [TrieNode.put]
    rw [if_neg h1, if_pos h2]
    exact ⟨hbm, hll, hlm, ih hlr⟩
  | case4 key v d hd sym l m r b k val c h1 h2 h3 ih =>
    obtain ⟨hbm, hll, hlm, hlr⟩ := hlive
    simp only [TrieNode.put]
    rw [if_neg h1, if_neg h2, dif_pos h3]
    exact ⟨Or.inr (put_ne_nil m key v (d + 1) (by omega)), hll, ih hlm, hlr⟩
  | case5 key v d hd sym l m r b k val c h1 h2 h3 =>
    obtain ⟨hbm, hll, hlm, hlr⟩ := hlive
    simp only [TrieNode.put]
    rw [if_neg h1, if_neg h2, dif_neg h3]
    exact ⟨Or.inl rfl, hll, hlm, hlr⟩

theorem walk_inv {V : Type} (n : TrieNode V) :
    ∀ (cs : List Char), n.inv → ((n.walk cs)).inv := by
  induction n with
  | nil =>
    intro cs _
    rw [walk_nil]
    trivial
  | node sym l m r b k val ihl ihm ihr =>
    intro cs hinv
    obtain ⟨hL, hR, hil, him, hir⟩ := hinv
    cases cs with
    | nil => exact ⟨hL, hR, hil, him, hir⟩
    | cons c rest =>
      rw [walk_node_cons]
      by_cases h1 : c < sym
      · rw [if_pos h1]
        exact ihl _ hil
      · rw [if_neg h1]
        by_cases h2 : sym < c
        · rw [if_pos h2]
          exact ihr _ hir
        · rw [if_neg h2]
          cases rest with
          | nil => exact ⟨hL, hR, hil, him, hir⟩
          | cons c2 rest2 => exact ihm _ him

theorem walk_live {V : Type} (n : TrieNode V) :
    ∀ (cs : List Char), n.live → ((n.walk cs)).live := by
  induction n with
  | nil =>
    intro cs _
    rw [walk_nil]
    trivial
  | node sym l m r b k val ihl ihm ihr =>
    intro cs hlive
    obtain ⟨hbm, hll, hlm, hlr⟩ := hlive
    cases cs with
    | nil => exact ⟨hbm, hll, hlm, hlr⟩
    | cons c rest =>
      rw [walk_node_cons]
      by_cases h1 : c < sym
      · rw [if_pos h1]
        exact ihl _ hll
      · rw [if_neg h1]
        by_cases h2 : sym < c
        · rw [if_pos h2]
          exact ihr _ hlr
        · rw [if_neg h2]
          cases rest with
          | nil => exact ⟨hbm, hll, hlm, hlr⟩
          | cons c2 rest2 => exact ihm _ hlm

theorem midChild_inv {V : Type} (n : TrieNode V) (hinv : n.inv) : n.midChild.inv := by
  cases n with
  | nil => trivial
  | node sym l m r b k val => exact hinv.2.2.2.1

theorem midChild_live {V : Type} (n : TrieNode V) (hlive : n.live) : n.midChild.live := by
  cases n with
  | nil => trivial
  | node sym l m r b k val => exact hlive.2.2.1

theorem reachable_inv_live {V : Type} (t : Trie V) (ht : t.Reachable) :
    t.root.inv ∧ t.root.live := by
  induction ht with
  | new => exact ⟨trivial, trivial⟩
  | put h hr ih =>
    exact ⟨put_inv _ _ _ 0 _ ih.1, put_live _ _ _ 0 _ ih.2⟩

theorem collect_ne_nil {V : Type} (n : TrieNode V) :
    ∀ (pre : List Char), n.live → n ≠ .nil → n.collect pre ≠ [] := by
  induction n with
  | nil => intro pre _ hne; exact absurd rfl hne
  | node sym l m r b k val ihl ihm ihr =>
    intro pre hlive _
    obtain ⟨hbm, hll, hlm, hlr⟩ := hlive
    simp only [TrieNode.collect]
    intro hEq
    simp only [List.append_eq_nil] at hEq
    obtain ⟨⟨⟨hA, hB⟩, hC⟩, hD⟩ := hEq
    rcases hbm with hb | hm
    · rw [if_pos hb] at hB
      simp at hB
    · exact ihm (pre ++ [sym]) hlm hm hC

theorem walk_append {V : Type} (n : TrieNode V) :
    ∀ (p s : List Char), p ≠ [] → s ≠ [] →
      n.walk (p ++ s) = ((n.walk p).midChild).walk s := by
  induction n with
  | nil =>
    intro p s _ _
    rw [walk_nil, walk_nil]
    rw [show TrieNode.midChild (V := V) .nil = .nil from rfl, walk_nil]
  | node sym l m r b k val ihl ihm ihr =>
    intro p s hp hs
    obtain ⟨c, rest, rfl⟩ : ∃ c rest, p = c :: rest := by
      cases p with
      | nil => exact absurd rfl hp
      | cons c rest => exact ⟨c, rest, rfl⟩
    obtain ⟨cs1, cs2, rfl⟩ : ∃ a b2, s = a :: b2 := by
      cases s with
      | nil => exact absurd rfl hs
      | cons a b2 => exact ⟨a, b2, rfl⟩
    cases rest with
    | nil =>
      simp only [List.singleton_append]
      rw [walk_node_cons, walk_node_cons]
      by_cases h1 : c < sym
      · rw [if_pos h1, if_pos h1]
        have := ihl [c] (cs1 :: cs2) (by simp) (by simp)
        simpa using this
      · rw [if_neg h1, if_neg h1]
        by_cases h2 : sym < c
        · rw [if_pos h2, if_pos h2]
          have := ihr [c] (cs1 :: cs2) (by simp) (by simp)
          simpa using this
        · rw [if_neg h2, if_neg h2]
          rfl
    | cons c2 rest2 =>
      simp only [List.cons_append]
      rw [walk_node_cons, walk_node_cons]
      by_cases h1 : c < sym
      · rw [if_pos h1, if_pos h1]
        have := ihl (c :: c2 :: rest2) (cs1 :: cs2) (by simp) (by simp)
        simpa using this
      · rw [if_neg h1, if_neg h1]
        by_cases h2 : sym < c
        · rw [if_pos h2, if_pos h2]
          have := ihr (c :: c2 :: rest2) (cs1 :: cs2) (by simp) (by simp)
          simpa using this
        · rw [if_neg h2, if_neg h2]
          have := ihm (c2 :: rest2) (cs1 :: cs2) (by simp) (by simp)
          simpa using this

theorem get_root_walk {V : Type} (t : Trie V) (k : List Char) (h : k ≠ []) :
    t.root.get k 0 (List.length_pos.mpr h) = (t.root.walk k, (t.root.walk k).terminal) := by
  have := walk_spec t.root k 0 (List.length_pos.mpr h)
  simpa using this

theorem contains_iff_walk {V : Type} (t : Trie V) (k : List Char) (h : k ≠ []) :
    t.Contains k h = (t.root.walk k).terminal := by
  rw [contains_eq_get_flag, get_root_walk t k h]

theorem startsWith_spec {V : Type} (t : Trie V) (p : List Char) (hp : p ≠ []) :
    t.StartsWith p =
      (match t.root.walk p with
       | .nil => .error .notFound
       | .node _ _ m _ _ _ _ => .ok (m.collect p)) := by
  simp only [Trie.StartsWith, dif_neg hp]
  rw [get_root_walk t p hp]
  cases t.root.walk p with
  | nil => rfl
  | node sym l m r b k val => rfl

/-- C4: whenever `StartsWith(p)` succeeds, and for `Keys()`, the returned
queue dequeues its keys in strictly ascending lexicographic order, as a
consequence of the collect traversal visiting `left`, then the node's own
terminal contribution, then `mid`, then `right` on a search-ordered
tree. -/
theorem trie_query_results_sorted {V : Type} (t : Trie V) (ht : t.Reachable)
    (p : List Char) (ks : List (List Char)) :
    (t.StartsWith p = .ok ks → ks.Pairwise (fun a b => lexLt a b = true))
    ∧ (t.Keys = .ok ks → ks.Pairwise (fun a b => lexLt a b = true)) := by
  obtain ⟨hinv, _⟩ := reachable_inv_live t ht
  constructor
  · intro hok
    by_cases hp : p = []
    · subst hp
      have hkeys : t.StartsWith ([] : List Char) = .ok (t.root.collect []) := rfl
      rw [hkeys, Except.ok.injEq] at hok
      subst hok
      exact collect_pairwise t.root [] hinv
    · rw [startsWith_spec t p hp] at hok
      cases hW : t.root.walk p with
      | nil =>
        rw [hW] at hok
        cases hok
      | node sym l m r b k val =>
        rw [hW] at hok
        simp only [Except.ok.injEq] at hok
        subst hok
        have hinv2 : (t.root.walk p).inv := walk_inv t.root p hinv
        rw [hW] at hinv2
        exact collect_pairwise m p hinv2.2.2.2.1
  · intro hok
    simp only [Trie.Keys, Except.ok.injEq] at hok
    subst hok
    exact collect_pairwise t.root [] hinv

/-- The trie of the package example: the eleven keys cats, cape, captain,
foes, apple, she, root, shells, the, thermos, foo inserted in this order
with their insertion indices as values. -/
def exampleTrie : Trie Nat :=
  (((((((((((Trie.new (V := Nat)).Put
    ['c','a','t','s'] 0 (by decide)).Put
    ['c','a','p','e'] 1 (by decide)).Put
    ['c','a','p','t','a','i','n'] 2 (by decide)).Put
    ['f','o','e','s'] 3 (by decide)).Put
    ['a','p','p','l','e'] 4 (by decide)).Put
    ['s','h','e'] 5 (by decide)).Put
    ['r','o','o','t'] 6 (by decide)).Put
    ['s','h','e','l','l','s'] 7 (by decide)).Put
    ['t','h','e'] 8 (by decide)).Put
    ['t','h','e','r','m','o','s'] 9 (by decide)).Put
    ['f','o','o'] 10 (by decide)

theorem exampleTrie_reachable : exampleTrie.Reachable :=
  .put _ (.put _ (.put _ (.put _ (.put _ (.put _ (.put _ (.put _ (.put _ (.put _
    (.put _ .new))))))))))

theorem trie_query_results_sorted_witness :
    ([['c','a','p','e'], ['c','a','p','t','a','i','n'], ['c','a','t','s']] :
      List (List Char)).Pairwise (fun a b => lexLt a b = true) :=
  (trie_query_results_sorted exampleTrie exampleTrie_reachable ['c','a']
    [['c','a','p','e'], ['c','a','p','t','a','i','n'], ['c','a','t','s']]).1 rfl

/-- C7: `Keys()` and `StartsWith` of the empty prefix return the same
(always successful) result — the empty prefix matches from the root —
and the result holds every stored key. -/
theorem trie_keys_eq_startsWith_empty {V : Type} (t : Trie V) :
    t.Keys = t.StartsWith []
    ∧ t.Keys = .ok (t.root.collect [])
    ∧ (∀ (k : List Char) (hk : k ≠ []), t.Contains k hk = true → k ∈ t.root.collect []) := by
  refine ⟨rfl, rfl, ?_⟩
  intro k hk hc
  rw [contains_iff_walk] at hc
  have := collect_sound t.root [] k hk hc
  simpa using this

theorem trie_keys_eq_startsWith_empty_witness :
    (['a'] : List Char) ∈ ((Trie.new (V := Nat)).Put ['a'] 0 (by decide)).root.collect [] :=
  (trie_keys_eq_startsWith_empty ((Trie.new (V := Nat)).Put ['a'] 0 (by decide))).2.2 ['a']
    (by decide) (by decide)

/-- C5 fails as stated when the prefix is the stored key itself: with only
the key "a" stored, `StartsWith("a")` succeeds but returns the empty
queue (the spec's `StartsWith` collects only from the matched node's
`mid` child and never enqueues the prefix itself), so the drained set
does not contain the stored key "a". -/
theorem trie_startsWith_self_not_contained :
    ((Trie.new (V := Nat)).Put ['a'] 0 (by decide)).Contains ['a'] (by decide) = true
    ∧ ((Trie.new (V := Nat)).Put ['a'] 0 (by decide)).StartsWith ['a'] = .ok []
    ∧ (['a'] : List Char) ∉ ([] : List (List Char)) :=
  ⟨by decide, rfl, by simp⟩

/-- C5 amended: for every stored key `k` and every prefix `p` of `k`
other than `k` itself (proper prefixes, the empty prefix included),
`StartsWith(p)` succeeds and the drained queue contains `k`; for
`p = k` the returned queue holds only the strict extensions of `k`,
so `k` itself is missing. -/
theorem trie_startsWith_proper_prefix_contains {V : Type} (t : Trie V) (k p : List Char)
    (hk : k ≠ []) (hc : t.Contains k hk = true) (hp : p <+: k) (hne : p ≠ k) :
    ∃ ks, t.StartsWith p = .ok ks ∧ k ∈ ks := by
  rw [contains_iff_walk] at hc
  by_cases hpe : p = []
  · subst hpe
    refine ⟨t.root.collect [], rfl, ?_⟩
    simpa using collect_sound t.root [] k hk hc
  · obtain ⟨s, rfl⟩ := hp
    have hs : s ≠ [] := by
      rintro rfl
      exact hne (by simp)
    have hdec := walk_append t.root p s hpe hs
    rw [hdec] at hc
    rw [startsWith_spec t p hpe]
    cases hW : t.root.walk p with
    | nil =>
      rw [hW] at hc
      rw [show TrieNode.midChild (V := V) .nil = .nil from rfl, walk_nil] at hc
      simp [TrieNode.terminal] at hc
    | node sym l m r b kk vv =>
      refine ⟨m.collect p, rfl, ?_⟩
      rw [hW] at hc
      exact collect_sound m p s hs hc

theorem trie_startsWith_proper_prefix_contains_witness :
    ∃ ks, ((Trie.new (V := Nat)).Put ['a','b'] 0 (by decide)).StartsWith ['a'] = .ok ks
      ∧ (['a','b'] : List Char) ∈ ks :=
  trie_startsWith_proper_prefix_contains ((Trie.new (V := Nat)).Put ['a','b'] 0 (by decide))
    ['a','b'] ['a'] (by decide) (by decide) ⟨['b'], rfl⟩ (by decide)

theorem take_drop_cons (q : List Char) (d kk : Nat) (hd : d < q.length) (hkk : d < kk) :
    (q.drop d).take (kk - d) = q.get ⟨d, hd⟩ :: ((q.drop (d + 1)).take (kk - (d + 1))) := by
  obtain ⟨j, hj⟩ : ∃ j, kk - d = j + 1 := ⟨kk - d - 1, by omega⟩
  rw [List.drop_eq_getElem_cons hd, hj, List.take_succ_cons]
  have hj2 : j = kk - (d + 1) := by omega
  rw [hj2]
  rfl

theorem longestPrefixLen_spec {V : Type} (n : TrieNode V) :
    ∀ (q : List Char) (d best : Nat), best ≤ d →
      (best ≤ n.longestPrefixLen q d best)
      ∧ (n.longestPrefixLen q d best = best ∨
          (d < n.longestPrefixLen q d best ∧ n.longestPrefixLen q d best ≤ q.length ∧
           (n.walk ((q.drop d).take (n.longestPrefixLen q d best - d))).terminal = true))
      ∧ (∀ kk, d < kk → kk ≤ q.length →
          (n.walk ((q.drop d).take (kk - d))).terminal = true →
          kk ≤ n.longestPrefixLen q d best) := by
  induction n with
  | nil =>
    intro q d best hbd
    refine ⟨le_rfl, Or.inl rfl, ?_⟩
    intro kk _ _ hterm
    rw [walk_nil] at hterm
    simp [TrieNode.terminal] at hterm
  | node sym l m r b k val ihl ihm ihr =>
    intro q d best hbd
    by_cases h : d < q.length
    · simp only [TrieNode.longestPrefixLen, dif_pos h]
      by_cases h1 : q.get ⟨d, h⟩ < sym
      · rw [if_pos h1]
        have hwalkeq : ∀ kk, d < kk →
            (TrieNode.node sym l m r b k val).walk ((q.drop d).take (kk - d)) =
            l.walk ((q.drop d).take (kk - d)) := by
          intro kk hkk
          rw [take_drop_cons q d kk h hkk, walk_node_cons, if_pos h1,
            ← take_drop_cons q d kk h hkk]
        obtain ⟨ih1, ih2, ih3⟩ := ihl q d best hbd
        refine ⟨ih1, ?_, ?_⟩
        · rcases ih2 with hres | ⟨ha, hb2, hc2⟩
          · exact Or.inl hres
          · exact Or.inr ⟨ha, hb2, by rw [hwalkeq _ ha]; exact hc2⟩
        · intro kk hkk hkq hterm
          rw [hwalkeq kk hkk] at hterm
          exact ih3 kk hkk hkq hterm
      · rw [if_neg h1]
        by_cases h2 : sym < q.get ⟨d, h⟩
        · rw [if_pos h2]
          have hwalkeq : ∀ kk, d < kk →
              (TrieNode.node sym l m r b k val).walk ((q.drop d).take (kk - d)) =
              r.walk ((q.drop d).take (kk - d)) := by
            intro kk hkk
            rw [take_drop_cons q d kk h hkk, walk_node_cons, if_neg h1, if_pos h2,
              ← take_drop_cons q d kk h hkk]
          obtain ⟨ih1, ih2, ih3⟩ := ihr q d best hbd
          refine ⟨ih1, ?_, ?_⟩
          · rcases ih2 with hres | ⟨ha, hb2, hc2⟩
            · exact Or.inl hres
            · exact Or.inr ⟨ha, hb2, by rw [hwalkeq _ ha]; exact hc2⟩
          · intro kk hkk hkq hterm
            rw [hwalkeq kk hkk] at hterm
            exact ih3 kk hkk hkq hterm
        · rw [if_neg h2]
          have hceq : q.get ⟨d, h⟩ = sym :=
            le_antisymm (le_of_not_lt h2) (le_of_not_lt h1)
          have hwalk1 :
              (TrieNode.node sym l m r b k val).walk ((q.drop d).take (d + 1 - d)) =
              TrieNode.node sym l m r b k val := by
            rw [take_drop_cons q d (d + 1) h (by omega)]
            have h0 : d + 1 - (d + 1) = 0 := by omega
            rw [h0, List.take_zero, hceq]
            simp only [walk_node_cons, lt_self_iff_false, if_false]
          have hwalk2 : ∀ kk, d + 1 < kk → kk ≤ q.length →
              (TrieNode.node sym l m r b k val).walk ((q.drop d).take (kk - d)) =
              m.walk ((q.drop (d + 1)).take (kk - (d + 1))) := by
            intro kk hkk hkq
            have hd1 : d + 1 < q.length := by omega
            rw [take_drop_cons q d kk h (by omega),
              take_drop_cons q (d + 1) kk hd1 hkk, hceq]
            simp only [walk_node_cons, lt_self_iff_false, if_false]
          by_cases hb : b = true
          · rw [if_pos hb]
            obtain ⟨ih1, ih2, ih3⟩ := ihm q (d + 1) (d + 1) le_rfl
            refine ⟨by omega, ?_, ?_⟩
            · refine Or.inr ⟨by omega, ?_, ?_⟩
              · rcases ih2 with hres | ⟨_, hb2, _⟩
                · omega
                · exact hb2
              · rcases ih2 with hres | ⟨ha, hb2, hc2⟩
                · rw [hres, hwalk1]
                  exact hb
                · rw [hwalk2 _ ha hb2]
                  exact hc2
            · intro kk hkk hkq hterm
              by_cases hkd : kk = d + 1
              · omega
              · rw [hwalk2 kk (by omega) hkq] at hterm
                exact le_trans (ih3 kk (by omega) hkq hterm) le_rfl
          · rw [if_neg hb]
            obtain ⟨ih1, ih2, ih3⟩ := ihm q (d + 1) best (by omega)
            refine ⟨ih1, ?_, ?_⟩
            · rcases ih2 with hres | ⟨ha, hb2, hc2⟩
              · exact Or.inl hres
              · exact Or.inr ⟨by omega, hb2, by rw [hwalk2 _ ha hb2]; exact hc2⟩
            · intro kk hkk hkq hterm
              by_cases hkd : kk = d + 1
              · subst hkd
                rw [hwalk1] at hterm
                simp only [TrieNode.terminal] at hterm
                exact absurd hterm hb
              · rw [hwalk2 kk (by omega) hkq] at hterm
                exact ih3 kk (by omega) hkq hterm
    · simp only [TrieNode.longestPrefixLen, dif_neg h]
      refine ⟨le_rfl, Or.inl (by trivial), ?_⟩
      intro kk hkk hkq _
      omega

/-- C3: `LongestPrefix(q)` returns the longest stored key that is a prefix
of `q` — the longest prefix of `q` at which the character-by-character
traversal passed a terminal node — and fails with `NotFound` exactly when
no stored key is a prefix of `q`; in particular, in the example trie with
the eleven stored keys, `LongestPrefix("capetown")` returns `"cape"`. -/
theorem trie_longestPrefix_spec {V : Type} (t : Trie V) (q : List Char) :
    (∀ r, t.LongestPrefix q = .ok r →
       r <+: q
       ∧ (∃ hr : r ≠ [], t.Contains r hr = true)
       ∧ (∀ (k : List Char) (hk : k ≠ []), t.Contains k hk = true → k <+: q →
           k.length ≤ r.length))
    ∧ (t.LongestPrefix q = .error .notFound ↔
        ∀ (k : List Char) (hk : k ≠ []), t.Contains k hk = true → ¬ k <+: q)
    ∧ exampleTrie.LongestPrefix ['c','a','p','e','t','o','w','n'] = .ok ['c','a','p','e'] := by
  obtain ⟨hlo, hmem, hub⟩ := longestPrefixLen_spec t.root q 0 0 le_rfl
  simp only [List.drop_zero, Nat.sub_zero] at hmem hub
  set L := t.root.longestPrefixLen q 0 0 with hLdef
  refine ⟨?_, ?_, rfl⟩
  · intro r hok
    simp only [Trie.LongestPrefix, ← hLdef] at hok
    by_cases hz : L = 0
    · rw [if_pos hz] at hok
      cases hok
    · rw [if_neg hz] at hok
      simp only [Except.ok.injEq] at hok
      subst hok
      rcases hmem with hL | ⟨hpos, hle, hterm⟩
      · exact absurd hL hz
      refine ⟨List.take_prefix _ _, ?_, ?_⟩
      · have hlen : (q.take L).length = L := by
          rw [List.length_take]
          omega
        have hne : q.take L ≠ [] := by
          intro hcon
          rw [hcon] at hlen
          simp at hlen
          omega
        refine ⟨hne, ?_⟩
        rw [contains_iff_walk]
        exact hterm
      · intro k hk hks hkpq
        have hkq := List.prefix_iff_eq_take.mp hkpq
        rw [contains_iff_walk] at hks
        have hkub := hub k.length (List.length_pos.mpr hk) hkpq.length_le
          (by rw [← hkq]; exact hks)
        rw [List.length_take]
        omega
  · constructor
    · intro herr k hk hks hkpq
      simp only [Trie.LongestPrefix, ← hLdef] at herr
      by_cases hz : L = 0
      · have hkq := List.prefix_iff_eq_take.mp hkpq
        rw [contains_iff_walk] at hks
        have hkub := hub k.length (List.length_pos.mpr hk) hkpq.length_le
          (by rw [← hkq]; exact hks)
        have := List.length_pos.mpr hk
        omega
      · rw [if_neg hz] at herr
        cases herr
    · intro hnone
      simp only [Trie.LongestPrefix, ← hLdef]
      by_cases hz : L = 0
      · rw [if_pos hz]
      · exfalso
        rcases hmem with hL | ⟨hpos, hle, hterm⟩
        · exact hz hL
        · have hlen : (q.take L).length = L := by
            rw [List.length_take]
            omega
          have hne : q.take L ≠ [] := by
            intro hcon
            rw [hcon] at hlen
            simp at hlen
            omega
          exact hnone (q.take L) hne (by rw [contains_iff_walk]; exact hterm)
            (List.take_prefix _ _)

theorem trie_longestPrefix_spec_witness :
    (['a'] : List Char) <+: ['a', 'b']
    ∧ (∃ hr : (['a'] : List Char) ≠ [],
        ((Trie.new (V := Nat)).Put ['a'] 0 (by decide)).Contains ['a'] hr = true)
    ∧ (∀ (k : List Char) (hk : k ≠ []),
        ((Trie.new (V := Nat)).Put ['a'] 0 (by decide)).Contains k hk = true →
        k <+: ['a', 'b'] → k.length ≤ (['a'] : List Char).length) :=
  (trie_longestPrefix_spec ((Trie.new (V := Nat)).Put ['a'] 0 (by decide)) ['a', 'b']).1
    ['a'] rfl

/-- C6: misses are reported, never fatal.  On a key outside the stored
set (in particular on a key that is only a proper prefix of stored keys)
`Get` answers the zero value together with `found = false`, and
`Contains` is that same boolean; `StartsWith` fails with `NotFound`
exactly when the `get`-style descent matches no node — equivalently,
for a reachable trie, when no stored key extends the (non-empty)
prefix; `LongestPrefix` fails with `NotFound` exactly when no stored
key is a prefix of the query.  Every operation of the model is a total
function: no lookup panics or aborts. -/
theorem trie_miss_behavior {V : Type} (t : Trie V) (ht : t.Reachable)
    (k p q : List Char) (hk : k ≠ []) :
    (k ∉ t.root.collect [] → t.Get k hk = (none, false))
    ∧ (t.Contains k hk = (t.Get k hk).2)
    ∧ (t.StartsWith p = .error .notFound ↔ p ≠ [] ∧ t.root.walk p = .nil)
    ∧ (p ≠ [] → (t.root.walk p = .nil ↔ ∀ x ∈ t.root.collect [], ¬ p <+: x))
    ∧ (t.LongestPrefix q = .error .notFound ↔ ∀ x ∈ t.root.collect [], ¬ x <+: q) := by
  obtain ⟨hinv, hlive⟩ := reachable_inv_live t ht
  have hbridge : ∀ x, x ∈ t.root.collect [] ↔
      ∃ hx : x ≠ [], (t.root.walk x).terminal = true := by
    intro x
    constructor
    · intro hxmem
      obtain ⟨c, s, hxeq, _⟩ := collect_shape t.root [] x hxmem
      have hxne : x ≠ [] := by
        rw [hxeq]
        simp
      exact ⟨hxne, collect_complete t.root [] x hinv hxne (by simpa using hxmem)⟩
    · rintro ⟨hx, hterm⟩
      simpa using collect_sound t.root [] x hx hterm
  obtain ⟨hlo, hmem, hub⟩ := longestPrefixLen_spec t.root q 0 0 le_rfl
  simp only [List.drop_zero, Nat.sub_zero] at hmem hub
  refine ⟨?_, rfl, ?_, ?_, ?_⟩
  · intro hnomem
    have hflag : (t.root.get k 0 (List.length_pos.mpr hk)).2 = false := by
      by_contra hcon
      rw [Bool.not_eq_false] at hcon
      rw [get_root_walk t k hk] at hcon
      have := collect_sound t.root [] k hk hcon
      rw [List.nil_append] at this
      exact hnomem this
    simp only [Trie.Get]
    rw [hflag]
    simp
  · constructor
    · intro herr
      by_cases hp : p = []
      · subst hp
        have hok : t.StartsWith ([] : List Char) = .ok (t.root.collect []) := rfl
        rw [hok] at herr
        cases herr
      · refine ⟨hp, ?_⟩
        rw [startsWith_spec t p hp] at herr
        cases hW : t.root.walk p with
        | nil => rfl
        | node sym l m r b kk vv =>
          rw [hW] at herr
          cases herr
    · rintro ⟨hp, hnil⟩
      rw [startsWith_spec t p hp, hnil]
  · intro hp
    constructor
    · intro hnil x hxmem hpx
      obtain ⟨hxne, hxterm⟩ := (hbridge x).mp hxmem
      rcases hpx with ⟨s2, rfl⟩
      by_cases hs2 : s2 = []
      · subst hs2
        rw [List.append_nil] at hxterm
        rw [hnil] at hxterm
        simp [TrieNode.terminal] at hxterm
      · rw [walk_append t.root p s2 hp hs2, hnil] at hxterm
        rw [show TrieNode.midChild (V := V) .nil = .nil from rfl, walk_nil] at hxterm
        simp [TrieNode.terminal] at hxterm
    · intro hno
      by_contra hcon
      have hlive2 := walk_live t.root p hlive
      have hinv2 := walk_inv t.root p hinv
      cases hW : t.root.walk p with
      | nil => exact hcon hW
      | node sym l m r b kk vv =>
        rw [hW] at hlive2 hinv2
        by_cases hb : b = true
        · have hterm : (t.root.walk p).terminal = true := by
            rw [hW]
            exact hb
          have hmemp := (hbridge p).mpr ⟨hp, hterm⟩
          exact hno p hmemp (List.prefix_refl p)
        · obtain ⟨hbm, _, hlm, _⟩ := hlive2
          have hm : m ≠ .nil := by
            rcases hbm with hb2 | hm
            · exact absurd hb2 hb
            · exact hm
          have hcne := collect_ne_nil m p hlm hm
          obtain ⟨x, hxmem⟩ := List.exists_mem_of_ne_nil _ hcne
          obtain ⟨c, s, hxeq, _⟩ := collect_shape m p x hxmem
          have hxterm : (m.walk (c :: s)).terminal = true := by
            apply collect_complete m p (c :: s) hinv2.2.2.2.1 (by simp)
            rw [← hxeq]
            exact hxmem
          have hdec := walk_append t.root p (c :: s) hp (by simp)
          have hterm2 : (t.root.walk (p ++ c :: s)).terminal = true := by
            rw [hdec, hW]
            exact hxterm
          have hmem2 := (hbridge (p ++ c :: s)).mpr ⟨by simp, hterm2⟩
          exact hno (p ++ c :: s) hmem2 ⟨c :: s, rfl⟩
  · constructor
    · intro herr x hxmem hxq
      obtain ⟨hx, hterm⟩ := (hbridge x).mp hxmem
      have hz : t.root.longestPrefixLen q 0 0 = 0 := by
        by_contra hzz
        simp only [Trie.LongestPrefix] at herr
        rw [if_neg hzz] at herr
        cases herr
      have hkq := List.prefix_iff_eq_take.mp hxq
      have hkub := hub x.length (List.length_pos.mpr hx) hxq.length_le
        (by rw [← hkq]; exact hterm)
      have := List.length_pos.mpr hx
      omega
    · intro hno
      simp only [Trie.LongestPrefix]
      by_cases hz : t.root.longestPrefixLen q 0 0 = 0
      · rw [if_pos hz]
      · exfalso
        rcases hmem with hL | ⟨hpos, hle, hterm⟩
        · exact hz hL
        · have hlen : (q.take (t.root.longestPrefixLen q 0 0)).length
              = t.root.longestPrefixLen q 0 0 := by
            rw [List.length_take]
            omega
          have hne : q.take (t.root.longestPrefixLen q 0 0) ≠ [] := by
            intro hcon
            rw [hcon] at hlen
            simp at hlen
            omega
          have hmemL := (hbridge (q.take (t.root.longestPrefixLen q 0 0))).mpr ⟨hne, hterm⟩
          exact hno _ hmemL (List.take_prefix _ _)

theorem trie_miss_behavior_witness :
    ((Trie.new (V := Nat)).Put ['a', 'b'] 5 (by decide)).Get ['z'] (by decide) = (none, false) :=
  (trie_miss_behavior ((Trie.new (V := Nat)).Put ['a', 'b'] 5 (by decide))
    (.put (by decide) .new) ['z'] ['z'] ['z'] (by decide)).1 (by decide)
